import Mathlib

set_option maxRecDepth 4000
set_option maxHeartbeats 1000000

/-!
Shallow embedding of `src/FinancialData.py`, the acquisition-and-reduction
pipeline for S&P 500 daily closing prices.

Modelling conventions:
* Calendar dates are triples of naturals ordered lexicographically
  (`Date.leb`), standing for the `DatetimeIndex` labels.
* Close prices are rationals, so min/max/mean are exact.
* A pandas `DataFrame` of daily bars is a `DailyBarTable`: the list of
  (date, Close) rows together with the name of its index (yfinance returns
  daily tables whose index is named "Date"; an unnamed index is `none`).
  Only the Close column is read by the program, so other columns are
  not modelled.
* A missing/NaN statistic (pandas `agg` over an empty resample bin) is
  `none : Option ℚ`.
* The external collaborators — the remote symbol-list documents and
  `yf.download` — are passed in as explicit inputs: a list of
  `Option (List String)` (one entry per URL; `none` = this source raised)
  and a function from a chunk of tickers to a `ChunkResponse`
  (`multi` = MultiIndex-columned answer with one sub-table per present
  ticker, `single` = flat-columned answer).
* Python `dict` is an insertion-ordered association list (`dictInsert`,
  `dictGet`); raised exceptions are `Except`.
-/

/-- A calendar date (the label of one row of a daily-bar table). -/
structure Date where
  year : Nat
  month : Nat
  day : Nat
deriving DecidableEq

/-- Lexicographic date comparison, the order used by label slicing
`df.loc[period_start:period_end]`. -/
def Date.leb (a b : Date) : Bool :=
  if a.year = b.year then
    if a.month = b.month then decide (a.day ≤ b.day)
    else decide (a.month < b.month)
  else decide (a.year < b.year)

/-- Serial number of a calendar month; two dates fall into the same
`resample("ME")` bin exactly when their `monthIndex` agree. -/
def monthIndex (d : Date) : Nat :=
  d.year * 12 + (d.month - 1)

/-- Three-letter English month abbreviation, as produced by `strftime("%b")`. -/
def monthAbbr : Nat → String
  | 1 => "Jan" | 2 => "Feb" | 3 => "Mar" | 4 => "Apr"
  | 5 => "May" | 6 => "Jun" | 7 => "Jul" | 8 => "Aug"
  | 9 => "Sep" | 10 => "Oct" | 11 => "Nov" | 12 => "Dec"
  | _ => ""

/-- Four-digit zero-padded year, as produced by `strftime("%Y")`. -/
def formatYear (y : Nat) : String :=
  let s := toString y
  String.mk (List.replicate (4 - s.length) '0') ++ s

/-- The `strftime("%Y %b")` label of the month-end bin with serial `m`. -/
def periodLabel (m : Nat) : String :=
  formatYear (m / 12) ++ " " ++ monthAbbr (m % 12 + 1)

/-- One ticker's raw daily table: the date-indexed Close series handed over
by the provider, together with the name of its date index. -/
structure DailyBarTable where
  indexName : Option String
  rows : List (Date × ℚ)
deriving DecidableEq

/-- One row of the per-ticker monthly statistics table
(`resample("ME").agg(["min", "max", "mean"])` after label formatting);
`none` stands for NaN in a bin with no observations. -/
structure StatRow where
  period : String
  min : Option ℚ
  max : Option ℚ
  mean : Option ℚ
deriving DecidableEq

/-- The per-ticker statistics DataFrame after `reset_index` and `rename`:
its column names in order, and its rows. -/
structure StatsFrame where
  columns : List String
  rows : List StatRow
deriving DecidableEq

/-- A row of the combined table, after `stats["Ticker"] = tk`. -/
structure CombinedRow where
  period : String
  min : Option ℚ
  max : Option ℚ
  mean : Option ℚ
  ticker : String
deriving DecidableEq

/-- The combined monthly table (`pd.concat` result or the empty-schema
fallback): column names in order, and rows. -/
structure CombinedFrame where
  columns : List String
  rows : List CombinedRow
deriving DecidableEq

/-- Aggregation `min` over one resample bin: NaN (`none`) on an empty bin. -/
def aggMin : List ℚ → Option ℚ
  | [] => none
  | x :: xs => some (xs.foldl min x)

/-- Aggregation `max` over one resample bin: NaN (`none`) on an empty bin. -/
def aggMax : List ℚ → Option ℚ
  | [] => none
  | x :: xs => some (xs.foldl max x)

/-- Aggregation `mean` over one resample bin: NaN (`none`) on an empty bin. -/
def aggMean : List ℚ → Option ℚ
  | [] => none
  | x :: xs => some ((x + xs.sum) / ((xs.length : ℚ) + 1))

/-- The inclusive label slice `df.loc[period_start:period_end]`. -/
def sliceRows (df : DailyBarTable) (period_start period_end : Date) : List (Date × ℚ) :=
  df.rows.filter (fun r => Date.leb period_start r.1 && Date.leb r.1 period_end)

/-- `rename(columns={"index": "Period"})` applied to one column name. -/
def renameIndexCol (c : String) : String :=
  if c = "index" then "Period" else c

/-- The statistics row of the month-end bin with serial `m`: the min/max/mean
of the Close values of the sliced table falling in that month. -/
def binRow (df_period : List (Date × ℚ)) (m : Nat) : StatRow :=
  let vals := df_period.filterMap (fun q => if monthIndex q.1 = m then some q.2 else none)
  ⟨periodLabel m, aggMin vals, aggMax vals, aggMean vals⟩

/-- `monthly_stats_for_period` (src/FinancialData.py:117-132): slice to the
inclusive window; if the slice is empty return `(pd.DataFrame(), 0)`;
otherwise resample month-end — one bin per calendar month from the first to
the last observed month, empty bins aggregating to NaN — format the labels,
`reset_index` (which names the new column after the index name, defaulting
to "index") and rename column "index" to "Period". -/
def monthly_stats_for_period (df : DailyBarTable) (period_start period_end : Date) :
    StatsFrame × Nat :=
  match sliceRows df period_start period_end with
  | [] => (⟨[], []⟩, 0)
  | r :: rs =>
    let lo := (rs.map (fun q => monthIndex q.1)).foldl min (monthIndex r.1)
    let hi := (rs.map (fun q => monthIndex q.1)).foldl max (monthIndex r.1)
    let rows := (List.range (hi + 1 - lo)).map (fun k => binRow (r :: rs) (lo + k))
    (⟨[df.indexName.getD "index", "min", "max", "mean"].map renameIndexCol, rows⟩,
      (r :: rs).length)

/-- `stats["Ticker"] = tk`: append a Ticker column holding `tk` on every row. -/
def attachTicker (tk : String) (s : StatsFrame) : CombinedFrame :=
  ⟨s.columns ++ ["Ticker"], s.rows.map (fun r => ⟨r.period, r.min, r.max, r.mean, tk⟩)⟩

/-- Column union in order of first appearance, as `pd.concat` aligns columns. -/
def unionCols (a b : List String) : List String :=
  a ++ b.filter (fun c => decide (c ∉ a))

/-- `pd.concat(stats_frames, ignore_index=True)`. -/
def concatFrames (fs : List CombinedFrame) : CombinedFrame :=
  ⟨fs.foldl (fun acc f => unionCols acc f.columns) [], (fs.map (fun f => f.rows)).flatten⟩

/-- The header line written by `combined_monthly.to_csv(out_csv, index=False)`:
the comma-joined column names, no index column. -/
def csvHeader (f : CombinedFrame) : String :=
  String.intercalate "," f.columns

/-- The only fatal resolver error: every symbol source failed
(`raise RuntimeError(...)` at src/FinancialData.py:63). -/
inductive PipelineError where
  | sourceUnavailable
deriving DecidableEq

/-- `str.replace(".", "-")` on a symbol, the provider-syntax normalization. -/
def normalizeSym (s : String) : String :=
  String.mk (s.toList.map (fun c => if c = '.' then '-' else c))

/-- `if limit: return syms[:limit]` — Python truthiness: a limit of `0` is
falsy, so it does not truncate. -/
def applyLimit : Option Nat → List String → List String
  | none, syms => syms
  | some n, syms => if n = 0 then syms else syms.take n

/-- `fetch_sp500_symbols` (src/FinancialData.py:32-65): try each source URL
in order; a failed source (`none`) logs a warning and falls through to the
next; the first successful source's Symbol column is normalized and
truncated to `limit`; if every source failed, raise. -/
def fetch_sp500_symbols : List (Option (List String)) → Option Nat →
    Except PipelineError (List String)
  | [], _ => .error .sourceUnavailable
  | none :: rest, limit => fetch_sp500_symbols rest limit
  | some raw :: _, limit => .ok (applyLimit limit (raw.map normalizeSym))

/-- Characters of a line before its first `#`, i.e. `ln.split("#", 1)[0]`. -/
def stripComment (s : String) : String :=
  String.mk (s.toList.takeWhile (fun c => c ≠ '#'))

/-- Python `str.strip()`: drop leading and trailing whitespace. -/
def pyStrip (s : String) : String :=
  String.mk (((s.toList.dropWhile Char.isWhitespace).reverse.dropWhile
    Char.isWhitespace).reverse)

/-- Python `str.upper()` (ASCII, which is all the program feeds it). -/
def pyUpper (s : String) : String :=
  String.mk (s.toList.map Char.toUpper)

/-- `if limit and len(lines) >= limit` — truthiness again: `None` and `0`
never stop the read. -/
def limitReached : Option Nat → Nat → Bool
  | none, _ => false
  | some n, k => decide (n ≠ 0) && decide (n ≤ k)

/-- The line-reading loop of `load_tickers_from_file`: strip the comment
and whitespace, skip blanks, upper-case, stop once `limit` tokens are
accepted. -/
def readLines (limit : Option Nat) : List String → List String → List String
  | [], acc => acc
  | ln :: rest, acc =>
    let s := pyStrip (stripComment ln)
    if s = "" then readLines limit rest acc
    else
      if limitReached limit (acc ++ [pyUpper s]).length then acc ++ [pyUpper s]
      else readLines limit rest (acc ++ [pyUpper s])

/-- The dedup pass of `load_tickers_from_file`: keep first occurrences,
preserving order. -/
def dedupeKeepFirst (l : List String) : List String :=
  l.foldl (fun out t => if t ∈ out then out else out ++ [t]) []

/-- `load_tickers_from_file` (src/FinancialData.py:68-86), with the file
already split into lines. -/
def load_tickers_from_file (lines : List String) (limit : Option Nat) : List String :=
  dedupeKeepFirst (readLines limit lines [])

/-- The two response shapes of `yf.download` for one chunk: a MultiIndex
table (one sub-table per ticker that has data) or a flat table. -/
inductive ChunkResponse where
  | multi (m : List (String × DailyBarTable))
  | single (t : DailyBarTable)

/-- Lookup in a Python dict modelled as an insertion-ordered assoc list. -/
def dictGet : List (String × DailyBarTable) → String → Option DailyBarTable
  | [], _ => none
  | p :: ps, k => if p.1 = k then some p.2 else dictGet ps k

/-- Assignment `d[k] = v` on a Python dict: replace in place if the key is
present, else append. -/
def dictInsert (k : String) (v : DailyBarTable) (d : List (String × DailyBarTable)) :
    List (String × DailyBarTable) :=
  if (dictGet d k).isSome then d.map (fun p => if p.1 = k then (k, v) else p)
  else d ++ [(k, v)]

/-- The slicing loop `range(0, len(ticker_list), chunk_size)`, with explicit
fuel (one unit per chunk; the list length suffices since every chunk takes
at least one element). -/
def chunksOfAux : Nat → Nat → List String → List (List String)
  | 0, _, _ => []
  | _, _, [] => []
  | fuel + 1, cs, x :: xs => (x :: xs.take (cs - 1)) :: chunksOfAux fuel cs (xs.drop (cs - 1))

/-- Partition into contiguous chunks of at most `cs` (for `cs ≥ 1`; Python's
`range` with step 0 is an error, and this model treats 0 like 1). -/
def chunksOf (cs : Nat) (l : List String) : List (List String) :=
  chunksOfAux l.length cs l

/-- Body of the multi-ticker branch: `if tk in df: frames[tk] = df[tk].copy()`
with a logged warning (no effect on the result) otherwise. -/
def multiStep (m : List (String × DailyBarTable)) (fr : List (String × DailyBarTable))
    (tk : String) : List (String × DailyBarTable) :=
  match dictGet m tk with
  | some sub => dictInsert tk sub fr
  | none => fr

/-- Handling of one chunk's `yf.download` answer
(src/FinancialData.py:103-112): a MultiIndex answer contributes one entry
per requested ticker present in it; a flat answer is assigned wholesale to
`chunk[0]`. -/
def processChunk (provider : List String → ChunkResponse)
    (frames : List (String × DailyBarTable)) (chunk : List String) :
    List (String × DailyBarTable) :=
  match provider chunk with
  | .multi m => chunk.foldl (multiStep m) frames
  | .single t =>
    match chunk with
    | [] => frames
    | tk :: _ => dictInsert tk t frames

/-- `chunked_download` (src/FinancialData.py:90-113): process the chunks in
order, accumulating the ticker → DataFrame dict. -/
def chunked_download (provider : List String → ChunkResponse) (ticker_list : List String)
    (chunk_size : Nat) : List (String × DailyBarTable) :=
  (chunksOf chunk_size ticker_list).foldl (processChunk provider) []

/-- The fixed analysis window of `run_sp500` (src/FinancialData.py:163). -/
def day20240101 : Date := ⟨2024, 1, 1⟩

/-- The fixed analysis window of `run_sp500` (src/FinancialData.py:163). -/
def day20241231 : Date := ⟨2024, 12, 31⟩

/-- One iteration of the per-ticker processing loop
(src/FinancialData.py:161-168): skip the ticker when `rows_used == 0 or
stats.empty`, else tag the stats with the ticker and collect them. -/
def procStep (acc : List CombinedFrame) (p : String × DailyBarTable) : List CombinedFrame :=
  let res := monthly_stats_for_period p.2 day20240101 day20241231
  if res.2 = 0 ∨ res.1.rows = [] ∨ res.1.columns = [] then acc
  else acc ++ [attachTicker p.1 res.1]

/-- The per-ticker processing loop over the downloaded dict, in insertion
order. -/
def processTickers (data : List (String × DailyBarTable)) : List CombinedFrame :=
  data.foldl procStep []

/-- The merge step (src/FinancialData.py:175-178): concatenate the collected
frames, or build the empty-schema table when none were collected. -/
def combineStats (stats_frames : List CombinedFrame) : CombinedFrame :=
  if stats_frames = [] then ⟨["Period", "min", "max", "mean", "Ticker"], []⟩
  else concatFrames stats_frames

/-- `run_sp500` (src/FinancialData.py:136-204): resolve the universe (a
resolver failure propagates and aborts), download chunked, aggregate each
ticker over the fixed 2024 window, merge, and return the combined table
that `to_csv` then persists. Logging and timing are observational only and
are not modelled. -/
def run_sp500 (srcs : List (Option (List String))) (provider : List String → ChunkResponse)
    (max_tickers : Option Nat) (chunk_size : Nat) : Except PipelineError CombinedFrame :=
  match fetch_sp500_symbols srcs max_tickers with
  | .error e => .error e
  | .ok tickers_list =>
    let data_dict := chunked_download provider tickers_list chunk_size
    .ok (combineStats (processTickers data_dict))

/-- The raw daily table of the end-to-end scenario for ticker "XYZ". -/
def xyzTable : DailyBarTable :=
  ⟨some "Date", [(⟨2024, 1, 15⟩, 10), (⟨2024, 1, 31⟩, 20), (⟨2024, 2, 15⟩, 30)]⟩

/-- A raw table with observations in January and March 2024 but none in
February. -/
def gapTable : DailyBarTable :=
  ⟨some "Date", [(⟨2024, 1, 15⟩, 10), (⟨2024, 3, 15⟩, 30)]⟩

/-- A one-observation table whose date index carries the name "Date", as
yfinance daily tables do. -/
def tblDateNamed : DailyBarTable := ⟨some "Date", [(⟨2024, 1, 15⟩, 10)]⟩

/-- A Date-named table with no rows at all. -/
def tblDateNamedEmpty : DailyBarTable := ⟨some "Date", []⟩

/-- A provider answering every chunk with the flat-shaped `tblDateNamed`. -/
def providerDateNamed : List String → ChunkResponse :=
  fun _ => .single tblDateNamed

/-- A provider answering every chunk with the flat-shaped empty table. -/
def providerDateNamedEmpty : List String → ChunkResponse :=
  fun _ => .single tblDateNamedEmpty

/-- C2: on the scenario table {2024-01-15: 10, 2024-01-31: 20, 2024-02-15: 30}
with window [2024-01-01, 2024-12-31], aggregation followed by the Ticker
tagging yields exactly the two chronological rows
("2024 Jan", 10, 20, 15, "XYZ") and ("2024 Feb", 30, 30, 30, "XYZ"), the
ticker attached to every row. -/
theorem monthly_stats_xyz_scenario :
    (attachTicker "XYZ"
        (monthly_stats_for_period xyzTable ⟨2024, 1, 1⟩ ⟨2024, 12, 31⟩).1).rows =
      [⟨"2024 Jan", some 10, some 20, some 15, "XYZ"⟩,
       ⟨"2024 Feb", some 30, some 30, some 30, "XYZ"⟩] := by
  have h : (attachTicker "XYZ"
      (monthly_stats_for_period xyzTable ⟨2024, 1, 1⟩ ⟨2024, 12, 31⟩).1).rows =
      [⟨"2024 Jan", some 10, some 20, aggMean [10, 20], "XYZ"⟩,
       ⟨"2024 Feb", some 30, some 30, aggMean [30], "XYZ"⟩] := rfl
  rw [h]
  norm_num [aggMean]

/-- C3 (counterexample): with observations on 2024-01-15 and 2024-03-15 only,
the month-end resampling emits a row labelled "2024 Feb" with NaN statistics,
although — as the fully displayed window slice shows — February has no
observation in the window; so a row can be emitted for a month with zero
observations. -/
theorem monthly_stats_gap_month_cex :
    (monthly_stats_for_period gapTable ⟨2024, 1, 1⟩ ⟨2024, 12, 31⟩).1.rows =
      [⟨"2024 Jan", some 10, some 10, some 10⟩,
       ⟨"2024 Feb", none, none, none⟩,
       ⟨"2024 Mar", some 30, some 30, some 30⟩]
    ∧ sliceRows gapTable ⟨2024, 1, 1⟩ ⟨2024, 12, 31⟩ =
      [(⟨2024, 1, 15⟩, 10), (⟨2024, 3, 15⟩, 30)] := by
  constructor
  · have h : (monthly_stats_for_period gapTable ⟨2024, 1, 1⟩ ⟨2024, 12, 31⟩).1.rows =
        [⟨"2024 Jan", some 10, some 10, aggMean [10]⟩,
         ⟨"2024 Feb", none, none, none⟩,
         ⟨"2024 Mar", some 30, some 30, aggMean [30]⟩] := rfl
    rw [h]
    norm_num [aggMean]
  · decide

/-- C7: resolving the file lines ["AAPL", "aapl", "# comment", "", "MSFT # note"]
with no limit yields exactly ["AAPL", "MSFT"]: comments and whitespace
stripped, blanks skipped, tokens upper-cased, duplicates dropped keeping the
first occurrence in order. -/
theorem load_tickers_dedupe_scenario :
    load_tickers_from_file ["AAPL", "aapl", "# comment", "", "MSFT # note"] none =
      ["AAPL", "MSFT"] := by
  decide

/-- C8 (counterexample): with the given limit 0 and a one-symbol source,
remote resolution returns the whole list — one entry, more than the cap of
0 — because `if limit:` treats 0 as "no limit". -/
theorem fetch_limit_zero_cex :
    fetch_sp500_symbols [some ["AAPL"]] (some 0) = Except.ok ["AAPL"]
    ∧ ¬ ((["AAPL"] : List String).length ≤ 0) := by
  constructor
  · rfl
  · decide

/-- C1 (code evaluated at the failing input): a run whose single ticker's
provider table carries the yfinance index name "Date" and one 2024
observation persists the header "Date,min,max,mean,Ticker" — the
`rename(columns={"index": "Period"})` misses, since `reset_index` named the
column "Date" — while the all-empty run persists the intended
"Period,min,max,mean,Ticker", and the two headers differ. -/
theorem run_sp500_header_bug :
    (run_sp500 [some ["AAPL"]] providerDateNamed none 100).map csvHeader =
      Except.ok "Date,min,max,mean,Ticker"
    ∧ (run_sp500 [some ["AAPL"]] providerDateNamedEmpty none 100).map csvHeader =
      Except.ok "Period,min,max,mean,Ticker"
    ∧ ("Date,min,max,mean,Ticker" : String) ≠ "Period,min,max,mean,Ticker" := by
  refine ⟨rfl, rfl, by decide⟩

/-- A left fold of `min` is bounded by its starting value. -/
theorem foldl_min_le_start {α : Type} [LinearOrder α] :
    ∀ (xs : List α) (x : α), xs.foldl min x ≤ x := by
  intro xs
  induction xs with
  | nil => intro x; simp
  | cons z zs ih => intro x; exact le_trans (ih (min x z)) (min_le_left _ _)

/-- A left fold of `min` is bounded by every element folded over. -/
theorem foldl_min_le_mem {α : Type} [LinearOrder α] :
    ∀ (xs : List α) (x y : α), y ∈ xs → xs.foldl min x ≤ y := by
  intro xs
  induction xs with
  | nil => intro x y hy; simp at hy
  | cons z zs ih =>
    intro x y hy
    rcases List.mem_cons.mp hy with h | h
    · subst h; exact le_trans (foldl_min_le_start zs (min x y)) (min_le_right _ _)
    · exact ih (min x z) y h

/-- A left fold of `max` dominates its starting value. -/
theorem start_le_foldl_max {α : Type} [LinearOrder α] :
    ∀ (xs : List α) (x : α), x ≤ xs.foldl max x := by
  intro xs
  induction xs with
  | nil => intro x; simp
  | cons z zs ih => intro x; exact le_trans (le_max_left _ _) (ih (max x z))

/-- A left fold of `max` dominates every element folded over. -/
theorem mem_le_foldl_max {α : Type} [LinearOrder α] :
    ∀ (xs : List α) (x y : α), y ∈ xs → y ≤ xs.foldl max x := by
  intro xs
  induction xs with
  | nil => intro x y hy; simp at hy
  | cons z zs ih =>
    intro x y hy
    rcases List.mem_cons.mp hy with h | h
    · subst h; exact le_trans (le_max_right _ _) (start_le_foldl_max zs (max x y))
    · exact ih (max x z) y h

/-- A list sum is at least its length times any lower bound of its members. -/
theorem length_mul_le_sum (l : List ℚ) (m : ℚ) (h : ∀ y ∈ l, m ≤ y) :
    (l.length : ℚ) * m ≤ l.sum := by
  induction l with
  | nil => simp
  | cons x xs ih =>
    have hx : m ≤ x := h x (List.mem_cons_self x xs)
    have ihh := ih (fun y hy => h y (List.mem_cons_of_mem x hy))
    simp only [List.length_cons, List.sum_cons]
    push_cast
    nlinarith [ihh, hx]

/-- A list sum is at most its length times any upper bound of its members. -/
theorem sum_le_length_mul (l : List ℚ) (m : ℚ) (h : ∀ y ∈ l, y ≤ m) :
    l.sum ≤ (l.length : ℚ) * m := by
  induction l with
  | nil => simp
  | cons x xs ih =>
    have hx : x ≤ m := h x (List.mem_cons_self x xs)
    have ihh := ih (fun y hy => h y (List.mem_cons_of_mem x hy))
    simp only [List.length_cons, List.sum_cons]
    push_cast
    nlinarith [ihh, hx]

/-- On any bin with defined statistics, min ≤ mean ≤ max. -/
theorem agg_bounds (vals : List ℚ) (a b c : ℚ)
    (ha : aggMin vals = some a) (hb : aggMax vals = some b)
    (hc : aggMean vals = some c) : a ≤ c ∧ c ≤ b := by
  cases vals with
  | nil => simp [aggMin] at ha
  | cons v vs =>
    simp only [aggMin, Option.some.injEq] at ha
    simp only [aggMax, Option.some.injEq] at hb
    simp only [aggMean, Option.some.injEq] at hc
    have hn : (0 : ℚ) < (vs.length : ℚ) + 1 := by positivity
    have hlow : ∀ y ∈ v :: vs, a ≤ y := by
      intro y hy
      rcases List.mem_cons.mp hy with h | h
      · rw [h, ← ha]; exact foldl_min_le_start vs v
      · rw [← ha]; exact foldl_min_le_mem vs v y h
    have hhigh : ∀ y ∈ v :: vs, y ≤ b := by
      intro y hy
      rcases List.mem_cons.mp hy with h | h
      · rw [h, ← hb]; exact start_le_foldl_max vs v
      · rw [← hb]; exact mem_le_foldl_max vs v y h
    have h1 : ((v :: vs).length : ℚ) * a ≤ (v :: vs).sum := length_mul_le_sum _ a hlow
    have h2 : (v :: vs).sum ≤ ((v :: vs).length : ℚ) * b := sum_le_length_mul _ b hhigh
    simp only [List.length_cons, List.sum_cons] at h1 h2
    push_cast at h1 h2
    constructor
    · rw [← hc, le_div_iff₀ hn]
      nlinarith [h1]
    · rw [← hc, div_le_iff₀ hn]
      nlinarith [h2]

/-- C3 (amended): for every raw table and window, (i) every emitted row whose
min/max/mean are all defined satisfies min ≤ mean ≤ max, and (ii) every
calendar month with at least one observation in the window slice does get an
emitted row carrying that month's label whose statistics are all defined.
(Months with no observation lying between two observed months also get a
row, with NaN statistics — see the counterexample.) -/
theorem monthly_stats_bounds (df : DailyBarTable) (ps pe : Date) :
    (∀ row ∈ (monthly_stats_for_period df ps pe).1.rows, ∀ a b c : ℚ,
        row.min = some a → row.max = some b → row.mean = some c → a ≤ c ∧ c ≤ b)
    ∧ (∀ r ∈ sliceRows df ps pe, ∃ row ∈ (monthly_stats_for_period df ps pe).1.rows,
        row.period = periodLabel (monthIndex r.1) ∧
        row.min ≠ none ∧ row.max ≠ none ∧ row.mean ≠ none) := by
  rcases hs : sliceRows df ps pe with _ | ⟨r0, rs⟩
  · constructor
    · intro row hrow
      simp [monthly_stats_for_period, hs] at hrow
    · intro r hr
      simp at hr
  · constructor
    · intro row hrow a b c ha hb hc
      simp only [monthly_stats_for_period, hs, List.mem_map, List.mem_range] at hrow
      obtain ⟨k, _, hk⟩ := hrow
      subst hk
      simp only [binRow] at ha hb hc
      exact agg_bounds _ a b c ha hb hc
    · intro r hr
      have hmem : r ∈ r0 :: rs := hr
      have hlom : (rs.map (fun q => monthIndex q.1)).foldl min (monthIndex r0.1) ≤
          monthIndex r.1 := by
        rcases List.mem_cons.mp hmem with h | h
        · rw [h]; exact foldl_min_le_start _ _
        · exact foldl_min_le_mem _ _ _ (List.mem_map.mpr ⟨r, h, rfl⟩)
      have hhim : monthIndex r.1 ≤
          (rs.map (fun q => monthIndex q.1)).foldl max (monthIndex r0.1) := by
        rcases List.mem_cons.mp hmem with h | h
        · rw [h]; exact start_le_foldl_max _ _
        · exact mem_le_foldl_max _ _ _ (List.mem_map.mpr ⟨r, h, rfl⟩)
      obtain ⟨v, vs, hvv⟩ : ∃ v vs, (r0 :: rs).filterMap
          (fun q => if monthIndex q.1 = monthIndex r.1 then some q.2 else none) =
            v :: vs := by
        have hv : r.2 ∈ (r0 :: rs).filterMap
            (fun q => if monthIndex q.1 = monthIndex r.1 then some q.2 else none) := by
          refine List.mem_filterMap.mpr ⟨r, hmem, ?_⟩
          simp
        rcases hvals : (r0 :: rs).filterMap
            (fun q => if monthIndex q.1 = monthIndex r.1 then some q.2 else none) with
          _ | ⟨v, vs⟩
        · rw [hvals] at hv; simp at hv
        · exact ⟨v, vs, hvals⟩
      refine ⟨binRow (r0 :: rs) (monthIndex r.1), ?_, rfl, ?_, ?_, ?_⟩
      · simp only [monthly_stats_for_period, hs]
        refine List.mem_map.mpr
          ⟨monthIndex r.1 - (rs.map (fun q => monthIndex q.1)).foldl min (monthIndex r0.1),
           List.mem_range.mpr (by omega), ?_⟩
        have harith : (rs.map (fun q => monthIndex q.1)).foldl min (monthIndex r0.1) +
            (monthIndex r.1 -
              (rs.map (fun q => monthIndex q.1)).foldl min (monthIndex r0.1)) =
            monthIndex r.1 := by omega
        rw [harith]
      · simp [binRow, hvv, aggMin]
      · simp [binRow, hvv, aggMax]
      · simp [binRow, hvv, aggMean]

/-- Witness for `monthly_stats_bounds`: on the scenario table, the January
row of the computed statistics has its bounds ordered. -/
theorem monthly_stats_bounds_witness : (10 : ℚ) ≤ 15 ∧ (15 : ℚ) ≤ 20 :=
  (monthly_stats_bounds xyzTable ⟨2024, 1, 1⟩ ⟨2024, 12, 31⟩).1
    ⟨"2024 Jan", some 10, some 20, some 15⟩
    (by
      have h : (monthly_stats_for_period xyzTable ⟨2024, 1, 1⟩ ⟨2024, 12, 31⟩).1.rows =
          [⟨"2024 Jan", some 10, some 20, aggMean [10, 20]⟩,
           ⟨"2024 Feb", some 30, some 30, aggMean [30]⟩] := rfl
      rw [h]
      norm_num [aggMean])
    10 20 15 rfl rfl rfl

/-- Replacing the value at a present key leaves that key bound to the new
value. -/
theorem dictGet_map_set (d : List (String × DailyBarTable)) (k : String) (v : DailyBarTable)
    (h : (dictGet d k).isSome) :
    dictGet (d.map (fun p => if p.1 = k then (k, v) else p)) k = some v := by
  induction d with
  | nil => simp [dictGet] at h
  | cons p ps ih =>
    by_cases hp : p.1 = k
    · simp only [List.map_cons, if_pos hp, dictGet]
      simp
    · simp only [dictGet, if_neg hp] at h
      simp only [List.map_cons, if_neg hp, dictGet, if_neg hp]
      exact ih h

/-- Replacing the value at key `k` does not change lookups at other keys. -/
theorem dictGet_map_other (d : List (String × DailyBarTable)) (k : String)
    (v : DailyBarTable) (k' : String) (hne : k' ≠ k) :
    dictGet (d.map (fun p => if p.1 = k then (k, v) else p)) k' = dictGet d k' := by
  induction d with
  | nil => simp
  | cons p ps ih =>
    by_cases hp : p.1 = k
    · simp only [List.map_cons, if_pos hp, dictGet]
      rw [if_neg (fun h : k = k' => hne h.symm), if_neg (fun h : p.1 = k' => hne (h ▸ hp)),
        ih]
    · simp only [List.map_cons, if_neg hp, dictGet]
      by_cases hp' : p.1 = k'
      · rw [if_pos hp', if_pos hp']
      · rw [if_neg hp', if_neg hp']
        exact ih

/-- Appending a fresh binding makes it the value found at its key. -/
theorem dictGet_append_self (d : List (String × DailyBarTable)) (k : String)
    (v : DailyBarTable) (h : dictGet d k = none) :
    dictGet (d ++ [(k, v)]) k = some v := by
  induction d with
  | nil => simp [dictGet]
  | cons p ps ih =>
    simp only [dictGet] at h
    by_cases hp : p.1 = k
    · rw [if_pos hp] at h
      exact absurd h (by simp)
    · rw [if_neg hp] at h
      simp only [List.cons_append, dictGet, if_neg hp]
      exact ih h

/-- Appending a binding for key `k` does not change lookups at other keys. -/
theorem dictGet_append_other (d : List (String × DailyBarTable)) (k : String)
    (v : DailyBarTable) (k' : String) (hne : k' ≠ k) :
    dictGet (d ++ [(k, v)]) k' = dictGet d k' := by
  induction d with
  | nil =>
    simp only [List.nil_append, dictGet]
    rw [if_neg (fun h : k = k' => hne h.symm)]
  | cons p ps ih =>
    simp only [List.cons_append, dictGet]
    by_cases hp : p.1 = k'
    · rw [if_pos hp, if_pos hp]
    · rw [if_neg hp, if_neg hp]
      exact ih

/-- Dict assignment binds the assigned key to the assigned value. -/
theorem dictGet_insert_self (d : List (String × DailyBarTable)) (k : String)
    (v : DailyBarTable) : dictGet (dictInsert k v d) k = some v := by
  by_cases h : (dictGet d k).isSome
  · rw [dictInsert, if_pos h]
    exact dictGet_map_set d k v h
  · rw [dictInsert, if_neg h]
    exact dictGet_append_self d k v (Option.not_isSome_iff_eq_none.mp h)

/-- Dict assignment leaves all other keys unchanged. -/
theorem dictGet_insert_other (d : List (String × DailyBarTable)) (k : String)
    (v : DailyBarTable) (k' : String) (hne : k' ≠ k) :
    dictGet (dictInsert k v d) k' = dictGet d k' := by
  by_cases h : (dictGet d k).isSome
  · rw [dictInsert, if_pos h]
    exact dictGet_map_other d k v k' hne
  · rw [dictInsert, if_neg h]
    exact dictGet_append_other d k v k' hne

/-- A key looks up to something exactly when it is among the dict's keys. -/
theorem dictGet_ne_none_iff (d : List (String × DailyBarTable)) (k : String) :
    dictGet d k ≠ none ↔ k ∈ d.map Prod.fst := by
  induction d with
  | nil => simp [dictGet]
  | cons p ps ih =>
    simp only [dictGet, List.map_cons, List.mem_cons]
    by_cases hp : p.1 = k
    · rw [if_pos hp]
      simp [hp.symm]
    · rw [if_neg hp]
      have hne : ¬ (k = p.1) := fun h => hp h.symm
      simp [ih, hne]

/-- Whether one chunk's handling binds key `tk` in the frames dict. -/
def chunkGives (provider : List String → ChunkResponse) (c : List String)
    (tk : String) : Prop :=
  match provider c with
  | .multi m => tk ∈ c ∧ dictGet m tk ≠ none
  | .single _ => c.head? = some tk

/-- A chunk not containing a ticker never binds it. -/
theorem not_chunkGives_of_not_mem (provider : List String → ChunkResponse)
    (c : List String) (tk : String) (h : tk ∉ c) : ¬ chunkGives provider c tk := by
  intro hg
  rcases hp : provider c with m | t
  · simp only [chunkGives, hp] at hg
    exact h hg.1
  · simp only [chunkGives, hp] at hg
    cases c with
    | nil => simp at hg
    | cons x xs =>
      simp only [List.head?_cons, Option.some.injEq] at hg
      exact h (by rw [← hg]; exact List.mem_cons_self x xs)

/-- The multi-ticker loop leaves a key unchanged when the response lacks it
or the chunk does not contain it. -/
theorem dictGet_multiFold (m : List (String × DailyBarTable)) (tk : String) :
    ∀ (c : List String) (fr : List (String × DailyBarTable)),
      dictGet m tk = none ∨ tk ∉ c →
      dictGet (c.foldl (multiStep m) fr) tk = dictGet fr tk := by
  intro c
  induction c with
  | nil => intro fr _; rfl
  | cons t c' ih =>
    intro fr h
    have hstep : dictGet (multiStep m fr t) tk = dictGet fr tk := by
      rw [multiStep]
      rcases hm : dictGet m t with _ | sub
      · rfl
      · have htne : tk ≠ t := by
          intro he
          rcases h with h | h
          · rw [← he, h] at hm
            exact Option.noConfusion hm
          · exact h (he ▸ List.mem_cons_self t c')
        exact dictGet_insert_other fr t sub tk htne
    have h' : dictGet m tk = none ∨ tk ∉ c' := by
      rcases h with h | h
      · exact Or.inl h
      · exact Or.inr (fun hc => h (List.mem_cons_of_mem t hc))
    rw [List.foldl_cons, ih (multiStep m fr t) h', hstep]

/-- Handling one chunk leaves every key it does not bind unchanged. -/
theorem dictGet_processChunk (provider : List String → ChunkResponse)
    (fr : List (String × DailyBarTable)) (c : List String) (tk : String)
    (h : ¬ chunkGives provider c tk) :
    dictGet (processChunk provider fr c) tk = dictGet fr tk := by
  rcases hp : provider c with m | t
  · simp only [processChunk, hp]
    apply dictGet_multiFold
    simp only [chunkGives, hp] at h
    push_neg at h
    by_cases hc : tk ∈ c
    · exact Or.inl (h hc)
    · exact Or.inr hc
  · simp only [processChunk, hp]
    cases c with
    | nil => rfl
    | cons x xs =>
      simp only [chunkGives, hp, List.head?_cons] at h
      exact dictGet_insert_other fr x t tk (fun he => h (congrArg some he.symm))

/-- Folding chunks that never bind a key leaves its lookup unchanged. -/
theorem dictGet_chunksFold (provider : List String → ChunkResponse) (tk : String) :
    ∀ (chunks : List (List String)) (fr : List (String × DailyBarTable)),
      (∀ c ∈ chunks, ¬ chunkGives provider c tk) →
      dictGet (chunks.foldl (processChunk provider) fr) tk = dictGet fr tk := by
  intro chunks
  induction chunks with
  | nil => intro fr _; rfl
  | cons c cs ih =>
    intro fr h
    rw [List.foldl_cons,
      ih (processChunk provider fr c) (fun c' hc' => h c' (List.mem_cons_of_mem c hc')),
      dictGet_processChunk provider fr c tk (h c (List.mem_cons_self c cs))]

/-- Any key bound after folding chunks was already bound or occurs in some
chunk. -/
theorem dictGet_chunksFold_mem (provider : List String → ChunkResponse) (tk : String) :
    ∀ (chunks : List (List String)) (fr : List (String × DailyBarTable)),
      dictGet (chunks.foldl (processChunk provider) fr) tk ≠ none →
      dictGet fr tk ≠ none ∨ tk ∈ chunks.flatten := by
  intro chunks
  induction chunks with
  | nil => intro fr h; exact Or.inl h
  | cons c cs ih =>
    intro fr h
    rw [List.foldl_cons] at h
    rcases ih (processChunk provider fr c) h with h1 | h1
    · by_cases hc : tk ∈ c
      · exact Or.inr (by rw [List.flatten_cons]; exact List.mem_append_left _ hc)
      · rw [dictGet_processChunk provider fr c tk
          (not_chunkGives_of_not_mem provider c tk hc)] at h1
        exact Or.inl h1
    · exact Or.inr (by rw [List.flatten_cons]; exact List.mem_append_right _ h1)

/-- The chunks of a list flatten back to the list: the partition is
contiguous, order-preserving, and covers every element exactly once. -/
theorem chunksOfAux_flatten :
    ∀ (fuel cs : Nat) (l : List String), l.length ≤ fuel →
      (chunksOfAux fuel cs l).flatten = l := by
  intro fuel
  induction fuel with
  | zero =>
    intro cs l hl
    have h0 : l = [] := List.length_eq_zero.mp (Nat.le_zero.mp hl)
    subst h0
    rfl
  | succ n ih =>
    intro cs l hl
    cases l with
    | nil => rfl
    | cons x xs =>
      simp only [List.length_cons] at hl
      simp only [chunksOfAux, List.flatten_cons]
      rw [ih cs (xs.drop (cs - 1)) (by rw [List.length_drop]; omega)]
      rw [List.cons_append, List.take_append_drop]

/-- Flattening the chunk partition of `l` returns `l`. -/
theorem chunksOf_flatten (cs : Nat) (l : List String) : (chunksOf cs l).flatten = l :=
  chunksOfAux_flatten l.length cs l (le_refl _)

/-- Every chunk has at most `cs` elements (for `cs ≥ 1`). -/
theorem chunksOfAux_mem_length :
    ∀ (fuel cs : Nat) (l : List String), 1 ≤ cs → l.length ≤ fuel →
      ∀ c ∈ chunksOfAux fuel cs l, c.length ≤ cs := by
  intro fuel
  induction fuel with
  | zero =>
    intro cs l hcs hl c hc
    have h0 : l = [] := List.length_eq_zero.mp (Nat.le_zero.mp hl)
    subst h0
    simp [chunksOfAux] at hc
  | succ n ih =>
    intro cs l hcs hl c hc
    cases l with
    | nil => simp [chunksOfAux] at hc
    | cons x xs =>
      simp only [List.length_cons] at hl
      simp only [chunksOfAux, List.mem_cons] at hc
      rcases hc with hc | hc
      · rw [hc]
        simp only [List.length_cons, List.length_take]
        have hmin := min_le_left (cs - 1) xs.length
        omega
      · exact ih cs (xs.drop (cs - 1)) hcs (by rw [List.length_drop]; omega) c hc

/-- The chunk count is the ceiling of length over chunk size (for `cs ≥ 1`). -/
theorem chunksOfAux_length_eq :
    ∀ (fuel cs : Nat) (l : List String), 1 ≤ cs → l.length ≤ fuel →
      (chunksOfAux fuel cs l).length = (l.length + cs - 1) / cs := by
  intro fuel
  induction fuel with
  | zero =>
    intro cs l hcs hl
    have h0 : l = [] := List.length_eq_zero.mp (Nat.le_zero.mp hl)
    subst h0
    simp only [chunksOfAux, List.length_nil]
    exact (Nat.div_eq_of_lt (by omega)).symm
  | succ n ih =>
    intro cs l hcs hl
    cases l with
    | nil =>
      simp only [chunksOfAux, List.length_nil]
      exact (Nat.div_eq_of_lt (by omega)).symm
    | cons x xs =>
      simp only [List.length_cons] at hl
      simp only [chunksOfAux, List.length_cons]
      rw [ih cs (xs.drop (cs - 1)) hcs (by rw [List.length_drop]; omega)]
      rw [List.length_drop]
      rw [show xs.length + 1 + cs - 1 = xs.length + cs from by omega,
        Nat.add_div_right _ (by omega : 0 < cs)]
      rcases Nat.lt_or_ge xs.length (cs - 1) with hlt | hge
      · rw [show xs.length - (cs - 1) = 0 from by omega,
          Nat.div_eq_of_lt (by omega : 0 + cs - 1 < cs),
          Nat.div_eq_of_lt (by omega : xs.length < cs)]
      · rw [show xs.length - (cs - 1) + cs - 1 = xs.length from by omega]

/-- C5: for every ticker list and chunk size ≥ 1, the chunks are a
contiguous order-preserving partition (they flatten back to the input, so
they cover every ticker exactly once), each chunk has at most `chunk_size`
elements, the chunk count is the ceiling of the list length over the chunk
size, and — whatever the provider answers — the key set of the downloaded
dict is a subset of the input ticker list. -/
theorem chunked_download_partition (l : List String) (cs : Nat) (h : 1 ≤ cs) :
    (chunksOf cs l).flatten = l
    ∧ (∀ c ∈ chunksOf cs l, c.length ≤ cs)
    ∧ (chunksOf cs l).length = (l.length + cs - 1) / cs
    ∧ ∀ (provider : List String → ChunkResponse) (tk : String),
        tk ∈ (chunked_download provider l cs).map Prod.fst → tk ∈ l := by
  refine ⟨chunksOf_flatten cs l, chunksOfAux_mem_length l.length cs l h (le_refl _),
    chunksOfAux_length_eq l.length cs l h (le_refl _), ?_⟩
  intro provider tk htk
  have h1 : dictGet (chunked_download provider l cs) tk ≠ none :=
    (dictGet_ne_none_iff _ tk).mpr htk
  rw [chunked_download] at h1
  rcases dictGet_chunksFold_mem provider tk (chunksOf cs l) [] h1 with h2 | h2
  · exact absurd rfl h2
  · rw [chunksOf_flatten cs l] at h2
    exact h2

/-- Witness for `chunked_download_partition`: chunking three tickers by two
gives back the three tickers in order, in two chunks. -/
theorem chunked_download_partition_witness :
    (chunksOf 2 ["A", "B", "C"]).flatten = ["A", "B", "C"]
    ∧ (chunksOf 2 ["A", "B", "C"]).length = 2 := by
  have h1 := (chunked_download_partition ["A", "B", "C"] 2 (by decide)).1
  have h2 := (chunked_download_partition ["A", "B", "C"] 2 (by decide)).2.2.1
  exact ⟨h1, by simpa using h2⟩

/-- Every frame the processing loop collects comes from a dict entry whose
aggregation used at least one raw row. -/
theorem mem_processTickers_foldl :
    ∀ (data : List (String × DailyBarTable)) (acc : List CombinedFrame) (f : CombinedFrame),
      f ∈ data.foldl procStep acc →
      f ∈ acc ∨ ∃ p ∈ data,
        f = attachTicker p.1 (monthly_stats_for_period p.2 day20240101 day20241231).1 ∧
        (monthly_stats_for_period p.2 day20240101 day20241231).2 ≠ 0 := by
  intro data
  induction data with
  | nil => intro acc f hf; exact Or.inl hf
  | cons p rest ih =>
    intro acc f hf
    rcases ih (procStep acc p) f hf with hacc | ⟨q, hq, hfq1, hfq2⟩
    · simp only [procStep] at hacc
      by_cases hcond : (monthly_stats_for_period p.2 day20240101 day20241231).2 = 0 ∨
          (monthly_stats_for_period p.2 day20240101 day20241231).1.rows = [] ∨
          (monthly_stats_for_period p.2 day20240101 day20241231).1.columns = []
      · rw [if_pos hcond] at hacc
        exact Or.inl hacc
      · rw [if_neg hcond] at hacc
        rcases List.mem_append.mp hacc with h | h
        · exact Or.inl h
        · right
          refine ⟨p, List.mem_cons_self p rest, ?_, ?_⟩
          · simpa using h
          · intro h0
            exact hcond (Or.inl h0)
    · exact Or.inr ⟨q, List.mem_cons_of_mem p hq, hfq1, hfq2⟩

/-- Every row of the combined table comes from one of the collected frames. -/
theorem mem_combineStats_rows (fs : List CombinedFrame) (row : CombinedRow)
    (h : row ∈ (combineStats fs).rows) : ∃ f ∈ fs, row ∈ f.rows := by
  by_cases hfs : fs = []
  · subst hfs
    simp [combineStats] at h
  · rw [combineStats, if_neg hfs] at h
    simp only [concatFrames, List.mem_flatten] at h
    obtain ⟨rsl, hrsl, hrow⟩ := h
    obtain ⟨f, hf, hfr⟩ := List.mem_map.mp hrsl
    refine ⟨f, hf, ?_⟩
    rw [hfr]
    exact hrow

/-- Every row of a ticker-tagged frame carries that ticker. -/
theorem attachTicker_row_ticker (tk : String) (s : StatsFrame) (row : CombinedRow)
    (h : row ∈ (attachTicker tk s).rows) : row.ticker = tk := by
  simp only [attachTicker] at h
  obtain ⟨r, _, hr⟩ := List.mem_map.mp h
  rw [← hr]

/-- Every row of the combined table is tagged with the key of a dict entry
whose window slice was non-empty. -/
theorem combined_row_ticker_key (data : List (String × DailyBarTable)) (row : CombinedRow)
    (h : row ∈ (combineStats (processTickers data)).rows) :
    ∃ p ∈ data, row.ticker = p.1 ∧
      (monthly_stats_for_period p.2 day20240101 day20241231).2 ≠ 0 := by
  obtain ⟨f, hf, hrow⟩ := mem_combineStats_rows _ _ h
  rcases mem_processTickers_foldl data [] f hf with h0 | ⟨p, hp, hf1, hf2⟩
  · simp at h0
  · rw [hf1] at hrow
    exact ⟨p, hp, attachTicker_row_ticker _ _ _ hrow, hf2⟩

/-- C4: a ticker whose inclusive window slice is empty gets the
`(pd.DataFrame(), 0)` result — zero rows used and an empty row sequence,
with no exception — and every dict entry for a ticker whose 2024 slice is
empty contributes no row to the combined table. -/
theorem aggregate_empty_window (df : DailyBarTable) (ps pe : Date)
    (data : List (String × DailyBarTable)) (tk : String)
    (h1 : sliceRows df ps pe = [])
    (h2 : ∀ p ∈ data, p.1 = tk → sliceRows p.2 day20240101 day20241231 = []) :
    monthly_stats_for_period df ps pe = (⟨[], []⟩, 0)
    ∧ ∀ row ∈ (combineStats (processTickers data)).rows, row.ticker ≠ tk := by
  constructor
  · simp [monthly_stats_for_period, h1]
  · intro row hrow htk
    obtain ⟨p, hp, hpt, hn0⟩ := combined_row_ticker_key data row hrow
    have hp1 : p.1 = tk := by rw [← hpt]; exact htk
    have hslice := h2 p hp hp1
    apply hn0
    simp [monthly_stats_for_period, hslice]

/-- A table whose only observation falls after the 2024 window. -/
def tblLate : DailyBarTable := ⟨none, [(⟨2025, 5, 1⟩, 7)]⟩

/-- Witness for `aggregate_empty_window`: a table listed after the window
end aggregates to the empty result with zero rows used. -/
theorem aggregate_empty_window_witness :
    monthly_stats_for_period tblLate day20240101 day20241231 = (⟨[], []⟩, 0) :=
  (aggregate_empty_window tblLate day20240101 day20241231 [("ZZZ", tblLate)] "ZZZ"
    (by decide) (by decide)).1

/-- C6: if every chunk containing ticker `tk` receives a multi-ticker
response with no sub-table for `tk`, then `tk` is absent from the retrieval
dict, the run still completes normally (no exception is raised), and no row
of the final combined table carries `tk`. -/
theorem chunked_download_missing_ticker (provider : List String → ChunkResponse)
    (srcs : List (Option (List String))) (limit : Option Nat) (cs : Nat)
    (l : List String) (tk : String)
    (hres : fetch_sp500_symbols srcs limit = Except.ok l)
    (h : ∀ c ∈ chunksOf cs l, tk ∈ c →
      ∃ m, provider c = ChunkResponse.multi m ∧ dictGet m tk = none) :
    dictGet (chunked_download provider l cs) tk = none
    ∧ ∃ combined, run_sp500 srcs provider limit cs = Except.ok combined
        ∧ ∀ row ∈ combined.rows, row.ticker ≠ tk := by
  have hnone : dictGet (chunked_download provider l cs) tk = none := by
    rw [chunked_download]
    rw [dictGet_chunksFold provider tk (chunksOf cs l) [] ?_]
    · rfl
    · intro c hc
      by_cases hmem : tk ∈ c
      · obtain ⟨m, hm, hmn⟩ := h c hc hmem
        intro hg
        simp only [chunkGives, hm] at hg
        exact hg.2 hmn
      · exact not_chunkGives_of_not_mem provider c tk hmem
  refine ⟨hnone, combineStats (processTickers (chunked_download provider l cs)), ?_, ?_⟩
  · simp only [run_sp500, hres]
  · intro row hrow htk
    obtain ⟨p, hp, hpt, _⟩ := combined_row_ticker_key _ row hrow
    have hkey : dictGet (chunked_download provider l cs) p.1 ≠ none :=
      (dictGet_ne_none_iff _ _).mpr (List.mem_map.mpr ⟨p, hp, rfl⟩)
    rw [← hpt, htk] at hkey
    exact hkey hnone

/-- A one-observation table for the witness providers. -/
def tblA : DailyBarTable := ⟨some "Date", [(⟨2024, 2, 2⟩, 5)]⟩

/-- A provider whose multi-ticker answer only ever contains AAPL. -/
def providerMissingMsft : List String → ChunkResponse :=
  fun _ => .multi [("AAPL", tblA)]

/-- Witness for `chunked_download_missing_ticker`: requesting MSFT against a
chunk response that only names AAPL leaves MSFT out of the dict. -/
theorem chunked_download_missing_ticker_witness :
    dictGet (chunked_download providerMissingMsft ["AAPL", "MSFT"] 100) "MSFT" = none :=
  (chunked_download_missing_ticker providerMissingMsft [some ["AAPL", "MSFT"]] none 100
    ["AAPL", "MSFT"] "MSFT" rfl
    (by
      intro c hc htk
      have hch : chunksOf 100 ["AAPL", "MSFT"] = [["AAPL", "MSFT"]] := rfl
      rw [hch] at hc
      have hc' : c = ["AAPL", "MSFT"] := by simpa using hc
      rw [hc']
      exact ⟨[("AAPL", tblA)], rfl, rfl⟩)).1

/-- C10: when the provider answers a chunk with a flat (non-MultiIndex)
table, retrieval binds the entire table to the chunk's first ticker —
whatever the chunk length and even for an empty table — and binds no other
ticker of that chunk. -/
theorem chunked_download_single_assigns (provider : List String → ChunkResponse)
    (cs : Nat) (l : List String) (tk : String) (rest : List String) (t : DailyBarTable)
    (hnd : l.Nodup) (hmem : (tk :: rest) ∈ chunksOf cs l)
    (hp : provider (tk :: rest) = ChunkResponse.single t) :
    dictGet (chunked_download provider l cs) tk = some t
    ∧ ∀ tk' ∈ rest, tk' ≠ tk → dictGet (chunked_download provider l cs) tk' = none := by
  obtain ⟨pre, post, hsplit⟩ := List.append_of_mem hmem
  have hflat : (chunksOf cs l).flatten = l := chunksOf_flatten cs l
  have hnd' : (pre.flatten ++ ((tk :: rest) ++ post.flatten)).Nodup := by
    have hthis := hnd
    rw [← hflat, hsplit, List.flatten_append, List.flatten_cons] at hthis
    exact hthis
  rw [List.nodup_append] at hnd'
  obtain ⟨hnd1, hnd2, hdisj⟩ := hnd'
  have hdisj2 : (tk :: rest).Disjoint post.flatten := by
    rw [List.nodup_append] at hnd2
    exact hnd2.2.2
  have htk_post : tk ∉ post.flatten :=
    fun hin => hdisj2 (List.mem_cons_self tk rest) hin
  have hcomp : chunked_download provider l cs =
      post.foldl (processChunk provider)
        (processChunk provider (pre.foldl (processChunk provider) []) (tk :: rest)) := by
    rw [chunked_download, hsplit, List.foldl_append, List.foldl_cons]
  constructor
  · rw [hcomp, dictGet_chunksFold provider tk post _ (fun c' hc' =>
      not_chunkGives_of_not_mem provider c' tk (fun hin =>
        htk_post (List.mem_flatten.mpr ⟨c', hc', hin⟩)))]
    simp only [processChunk, hp]
    exact dictGet_insert_self _ tk t
  · intro tk' htk' hne
    have htk'_pre : tk' ∉ pre.flatten := fun hin =>
      hdisj hin (List.mem_append_left _ (List.mem_cons_of_mem tk htk'))
    have htk'_post : tk' ∉ post.flatten := fun hin =>
      hdisj2 (List.mem_cons_of_mem tk htk') hin
    have hg1 : ¬ chunkGives provider (tk :: rest) tk' := by
      intro hg
      simp only [chunkGives, hp, List.head?_cons, Option.some.injEq] at hg
      exact hne hg.symm
    rw [hcomp,
      dictGet_chunksFold provider tk' post _ (fun c' hc' =>
        not_chunkGives_of_not_mem provider c' tk' (fun hin =>
          htk'_post (List.mem_flatten.mpr ⟨c', hc', hin⟩))),
      dictGet_processChunk provider _ (tk :: rest) tk' hg1,
      dictGet_chunksFold provider tk' pre [] (fun c' hc' =>
        not_chunkGives_of_not_mem provider c' tk' (fun hin =>
          htk'_pre (List.mem_flatten.mpr ⟨c', hc', hin⟩)))]
    rfl

/-- The empty daily-bar table. -/
def emptyTbl : DailyBarTable := ⟨none, []⟩

/-- A provider answering every chunk with a flat-shaped empty table. -/
def providerFlat : List String → ChunkResponse := fun _ => .single emptyTbl

/-- Witness for `chunked_download_single_assigns`: a flat (empty) response
for the chunk ["A", "B"] goes wholly to "A", and "B" gets nothing. -/
theorem chunked_download_single_assigns_witness :
    dictGet (chunked_download providerFlat ["A", "B"] 2) "A" = some emptyTbl
    ∧ dictGet (chunked_download providerFlat ["A", "B"] 2) "B" = none := by
  have h := chunked_download_single_assigns providerFlat 2 ["A", "B"] "A" ["B"] emptyTbl
    (by decide) (by decide) rfl
  exact ⟨h.1, h.2 "B" (by decide) (by decide)⟩

/-- The loop of `load_tickers_from_file` never collects more than the limit
(for a truthy limit `n ≥ 1`). -/
theorem readLines_length_le (n : Nat) (hn : 1 ≤ n) :
    ∀ (lines acc : List String), acc.length < n →
      (readLines (some n) lines acc).length ≤ n := by
  intro lines
  induction lines with
  | nil =>
    intro acc hacc
    simp only [readLines]
    omega
  | cons ln rest ih =>
    intro acc hacc
    simp only [readLines]
    by_cases hs : pyStrip (stripComment ln) = ""
    · rw [if_pos hs]
      exact ih acc hacc
    · rw [if_neg hs]
      by_cases hl : limitReached (some n)
          (acc ++ [pyUpper (pyStrip (stripComment ln))]).length
      · rw [if_pos hl]
        simp only [List.length_append, List.length_singleton]
        omega
      · rw [if_neg hl]
        apply ih
        simp only [limitReached, Bool.and_eq_true, decide_eq_true_eq] at hl
        push_neg at hl
        have := hl (by omega)
        simp only [List.length_append, List.length_singleton] at this ⊢
        omega

/-- Keep-first deduplication never lengthens a list. -/
theorem dedupe_foldl_length_le :
    ∀ (l acc : List String),
      (l.foldl (fun out t => if t ∈ out then out else out ++ [t]) acc).length ≤
        acc.length + l.length := by
  intro l
  induction l with
  | nil => intro acc; simp
  | cons t ts ih =>
    intro acc
    rw [List.foldl_cons]
    by_cases ht : t ∈ acc
    · rw [if_pos ht]
      have := ih acc
      simp only [List.length_cons]
      omega
    · rw [if_neg ht]
      have := ih (acc ++ [t])
      simp only [List.length_append, List.length_singleton, List.length_cons,
        List.length_nil] at this ⊢
      omega

/-- C8 (amended, limits `n ≥ 1`): remote resolution with limit `n` returns
exactly the first `n` entries of the normalized source list — exactly `n`
entries when the source has at least `n` — and file-based resolution stops
once `n` accepted tokens are collected, so its result never exceeds `n`
entries. (Limit 0 is falsy in Python and disables the cap instead — see
the counterexample.) -/
theorem resolve_limit_cap (raw : List String) (lines : List String) (n : Nat)
    (hn : 1 ≤ n) (hlen : n ≤ raw.length) :
    fetch_sp500_symbols [some raw] (some n) = Except.ok ((raw.map normalizeSym).take n)
    ∧ ((raw.map normalizeSym).take n).length = n
    ∧ (load_tickers_from_file lines (some n)).length ≤ n := by
  refine ⟨?_, ?_, ?_⟩
  · simp only [fetch_sp500_symbols, applyLimit]
    rw [if_neg (by omega : ¬ n = 0)]
  · rw [List.length_take, List.length_map]
    omega
  · rw [load_tickers_from_file, dedupeKeepFirst]
    have h1 := readLines_length_le n hn lines [] (by simpa using hn)
    have h2 := dedupe_foldl_length_le (readLines (some n) lines []) []
    simp only [List.length_nil, Nat.zero_add] at h2
    omega

/-- Witness for `resolve_limit_cap`: limit 1 over a two-symbol source and a
two-line file. -/
theorem resolve_limit_cap_witness :
    fetch_sp500_symbols [some ["A.B", "MSFT"]] (some 1) =
      Except.ok ((["A.B", "MSFT"].map normalizeSym).take 1)
    ∧ ((["A.B", "MSFT"].map normalizeSym).take 1).length = 1
    ∧ (load_tickers_from_file ["AAPL", "MSFT"] (some 1)).length ≤ 1 :=
  resolve_limit_cap ["A.B", "MSFT"] ["AAPL", "MSFT"] 1 (by decide) (by decide)

/-- C9: remote resolution skips failing sources in order and returns the
first successful source's normalized, limit-truncated list; when every
source fails it raises `SourceUnavailable`, and that error propagates
through `run_sp500`, aborting the run. -/
theorem source_fallback (pre post : List (Option (List String))) (raw : List String)
    (limit : Option Nat) (srcs2 : List (Option (List String)))
    (provider : List String → ChunkResponse) (cs : Nat)
    (hpre : ∀ s ∈ pre, s = none) (hall : ∀ s ∈ srcs2, s = none) :
    fetch_sp500_symbols (pre ++ some raw :: post) limit =
      Except.ok (applyLimit limit (raw.map normalizeSym))
    ∧ fetch_sp500_symbols srcs2 limit = Except.error PipelineError.sourceUnavailable
    ∧ run_sp500 srcs2 provider limit cs = Except.error PipelineError.sourceUnavailable := by
  have herr : ∀ (ps : List (Option (List String))), (∀ s ∈ ps, s = none) →
      fetch_sp500_symbols ps limit = Except.error PipelineError.sourceUnavailable := by
    intro ps
    induction ps with
    | nil => intro _; rfl
    | cons s ss ih =>
      intro hps
      have hs : s = none := hps s (List.mem_cons_self s ss)
      subst hs
      simp only [fetch_sp500_symbols]
      exact ih (fun s' hs' => hps s' (List.mem_cons_of_mem _ hs'))
  have hfb : ∀ (ps : List (Option (List String))), (∀ s ∈ ps, s = none) →
      fetch_sp500_symbols (ps ++ some raw :: post) limit =
        Except.ok (applyLimit limit (raw.map normalizeSym)) := by
    intro ps
    induction ps with
    | nil => intro _; rfl
    | cons s ss ih =>
      intro hps
      have hs : s = none := hps s (List.mem_cons_self s ss)
      subst hs
      simp only [List.cons_append, fetch_sp500_symbols]
      exact ih (fun s' hs' => hps s' (List.mem_cons_of_mem _ hs'))
  refine ⟨hfb pre hpre, herr srcs2 hall, ?_⟩
  simp only [run_sp500, herr srcs2 hall]

/-- Witness for `source_fallback`: one failing source before a good one;
two failing sources abort resolution and the run. -/
theorem source_fallback_witness :
    fetch_sp500_symbols [none, some ["A.B"]] none =
      Except.ok (applyLimit none (["A.B"].map normalizeSym))
    ∧ fetch_sp500_symbols [none, none] none = Except.error PipelineError.sourceUnavailable
    ∧ run_sp500 [none, none] providerFlat none 100 =
        Except.error PipelineError.sourceUnavailable :=
  source_fallback [none] [] ["A.B"] none [none, none] providerFlat 100
    (by decide) (by decide)
